import Mathlib

/-!
Verification of the TTL-bounded presence cache in `cache.go`.

The Go cache stores a `map[string]int64` from key to the `UnixNano`
timestamp of its last `Add`, guarded by an `RWMutex`.  We embed the map
as an association list with unique keys (`List (String × Int)`); the
list order stands in for Go's (unspecified) map iteration order, which
the code only relies on to break ties during eviction.  Durations and
timestamps are `Int` nanoseconds.  The background reaper goroutine is
embedded by `cache.reapSweep`, the body of one wake of the loop in
`startReaper`; the interleaving itself is outside the model (every Go
operation runs under the lock, so each observable history is a sequence
of these atomic steps).
-/

/-- `int64(math.MaxInt64)`, the initial value of `oldestTS` in `Add`. -/
def maxInt64 : Int := 9223372036854775807

/-- Go map read `ts, ok := entries[v]`: the timestamp stored for key `k`. -/
def lookupTS : List (String × Int) → String → Option Int
  | [], _ => none
  | (k', t) :: rest, k => if k' = k then some t else lookupTS rest k

/-- Go `delete(entries, k)`: remove the entry for `k` (all occurrences;
with unique keys, the one occurrence). -/
def eraseKey (es : List (String × Int)) (k : String) : List (String × Int) :=
  es.filter (fun e => !(e.1 = k : Bool))

/-- Go map write `entries[k] = t`: overwrite in place, or append a new entry. -/
def insertKey : List (String × Int) → String → Int → List (String × Int)
  | [], k, t => [(k, t)]
  | (k', t') :: rest, k, t =>
    if k' = k then (k, t) :: rest else (k', t') :: insertKey rest k t

/-- The eviction scan in `Add` (`cache.go` lines 78-85): start from
`oldestTS = math.MaxInt64`, `oldestV = ""`, and take each entry whose
timestamp is strictly below the best so far. Returns `(oldestTS, oldestV)`. -/
def findOldest (es : List (String × Int)) : Int × String :=
  es.foldl (fun acc e => if e.2 < acc.1 then (e.2, e.1) else acc) (maxInt64, "")

/-- The cache state of `type cache struct` in `cache.go` (the `RWMutex` is
the lock, not data; `stop` is the reaper's stop flag). -/
structure cache where
  TTL : Int
  ReapIntervals : Int
  MaxEntries : Int
  stop : Bool
  entries : List (String × Int)
deriving Repr, DecidableEq

/-- The construction errors of `newCache`: `ttl <= 0` yields the
"invalid ttl" error, `reapIntervals > ttl` the "reapIntervals should be
less than ttl" error (Go returns `fmt.Errorf` values; we model the two
distinct errors as an inductive). -/
inductive cacheError where
  | invalidTTL
  | invalidReapInterval
deriving Repr, DecidableEq

/-- `newCache(ttl, reapIntervals, maxEntries)` from `cache.go`:
validates `ttl > 0` and `reapIntervals <= ttl`, then returns a cache
with an empty entries map (and starts the reaper, which is process
structure outside the state model). -/
def newCache (ttl reapIntervals maxEntries : Int) : Except cacheError cache :=
  if ttl ≤ 0 then .error .invalidTTL
  else if reapIntervals > ttl then .error .invalidReapInterval
  else .ok { TTL := ttl, ReapIntervals := reapIntervals, MaxEntries := maxEntries,
             stop := false, entries := [] }

/-- `func (c *cache) Destroy()`: sets the stop flag. -/
def cache.Destroy (c : cache) : cache :=
  { c with stop := true }

/-- `func (c *cache) Len() int`: the number of entries. -/
def cache.Len (c : cache) : Int :=
  (c.entries.length : Int)

/-- `func (c *cache) Size() int`: the number of entries. -/
def cache.Size (c : cache) : Int :=
  (c.entries.length : Int)

/-- `func (c *cache) Add(v string)` with the current `UnixNano` time
passed explicitly: if `MaxEntries > 0 && len(entries) >= MaxEntries`,
delete the entry found by the oldest-scan, then write `entries[v] = now`. -/
def cache.Add (c : cache) (v : String) (now : Int) : cache :=
  let es :=
    if 0 < c.MaxEntries ∧ c.MaxEntries ≤ (c.entries.length : Int) then
      eraseKey c.entries (findOldest c.entries).2
    else
      c.entries
  { c with entries := insertKey es v now }

/-- `func (c *cache) Exists(v string) bool`: the map membership test
`_, e = c.entries[v]` — note the source checks no timestamp here. -/
def cache.Exists (c : cache) (v : String) : Bool :=
  (lookupTS c.entries v).isSome

/-- One wake of the reaper loop body in `startReaper` (`cache.go` lines
47-58), at current time `now`: compute `cutOff = now - TTL`, collect
every key whose timestamp is `< cutOff`, then delete the collected keys. -/
def cache.reapSweep (c : cache) (now : Int) : cache :=
  let cutOff := now - c.TTL
  let toReap := (c.entries.filter (fun e => decide (e.2 < cutOff))).map Prod.fst
  { c with entries := toReap.foldl (fun es rv => eraseKey es rv) c.entries }

/-- The spec's freshness predicate for `Exists`, written from the spec's
words ("returns true iff key is present and not expired (age < TTL at
time of call)") to compare against the source's `cache.Exists`. -/
def specFreshB (c : cache) (k : String) (now : Int) : Bool :=
  match lookupTS c.entries k with
  | none => false
  | some ts => decide (now - ts < c.TTL)

/-- The mutating operations of the cache, for stating trace invariants:
an `Add` at some time, one reap sweep at some time, or `Destroy`. -/
inductive cacheOp where
  | add (k : String) (now : Int)
  | reap (now : Int)
  | destroy
deriving Repr, DecidableEq

/-- Apply one operation to a cache state. -/
def applyOp (c : cache) : cacheOp → cache
  | .add k now => c.Add k now
  | .reap now => c.reapSweep now
  | .destroy => c.Destroy

/-- Run a sequence of operations left to right. -/
def runOps (c : cache) (ops : List cacheOp) : cache :=
  ops.foldl applyOp c

/-- A `.add` operation carries a realistic timestamp: `time.Now().UnixNano()`
is strictly below `math.MaxInt64` (the scan sentinel) until the year 2262. -/
def opTimeOK : cacheOp → Bool
  | .add _ now => decide (now < maxInt64)
  | .reap _ => true
  | .destroy => true

/-! ### Association-list lemmas -/

theorem lookupTS_insertKey_self (es : List (String × Int)) (k : String) (t : Int) :
    lookupTS (insertKey es k t) k = some t := by
  induction es with
  | nil => simp [insertKey, lookupTS]
  | cons e rest ih =>
    by_cases h : e.1 = k
    · simp [insertKey, h, lookupTS]
    · simp [insertKey, h, lookupTS, ih]

theorem lookupTS_insertKey_ne (es : List (String × Int)) (k k' : String) (t : Int)
    (h : k' ≠ k) : lookupTS (insertKey es k t) k' = lookupTS es k' := by
  induction es with
  | nil => simp [insertKey, lookupTS, h.symm]
  | cons e rest ih =>
    obtain ⟨a, b⟩ := e
    by_cases he : a = k
    · subst he
      simp [insertKey, lookupTS, h.symm]
    · simp [insertKey, he, lookupTS, ih]

theorem lookupTS_eraseKey_self (es : List (String × Int)) (k : String) :
    lookupTS (eraseKey es k) k = none := by
  induction es with
  | nil => simp [eraseKey, lookupTS]
  | cons e rest ih =>
    obtain ⟨a, b⟩ := e
    by_cases h : a = k
    · simpa [eraseKey, List.filter_cons, h] using ih
    · simpa [eraseKey, List.filter_cons, h, lookupTS] using ih

theorem lookupTS_eraseKey_ne (es : List (String × Int)) (k k' : String)
    (h : k' ≠ k) : lookupTS (eraseKey es k) k' = lookupTS es k' := by
  induction es with
  | nil => simp [eraseKey]
  | cons e rest ih =>
    obtain ⟨a, b⟩ := e
    by_cases he : a = k
    · have ha : a ≠ k' := by rw [he]; exact h.symm
      simpa [eraseKey, List.filter_cons, he, lookupTS, ha, h.symm] using ih
    · by_cases he' : a = k'
      · simp [eraseKey, List.filter_cons, he, lookupTS, he', h]
      · simpa [eraseKey, List.filter_cons, he, lookupTS, he'] using ih

theorem lookupTS_eq_none_iff (es : List (String × Int)) (k : String) :
    lookupTS es k = none ↔ k ∉ es.map Prod.fst := by
  induction es with
  | nil => simp [lookupTS]
  | cons e rest ih =>
    obtain ⟨a, b⟩ := e
    by_cases h : a = k
    · subst h
      simp [lookupTS]
    · simp only [lookupTS, if_neg h, List.map_cons, List.mem_cons, not_or, ih]
      exact ⟨fun hk => ⟨fun hh => h hh.symm, hk⟩, fun hk => hk.2⟩

theorem lookupTS_isSome_of_mem (es : List (String × Int)) (k : String) (t : Int)
    (h : (k, t) ∈ es) : (lookupTS es k).isSome = true := by
  induction es with
  | nil => simp at h
  | cons e rest ih =>
    rcases List.mem_cons.mp h with h1 | h1
    · simp [lookupTS, ← h1]
    · by_cases he : e.1 = k
      · simp [lookupTS, he]
      · simpa [lookupTS, he] using ih h1

theorem lookupTS_filter (es : List (String × Int)) (p : String × Int → Bool)
    (k : String) (t : Int) (hl : lookupTS es k = some t) (hp : p (k, t) = true) :
    lookupTS (es.filter p) k = some t := by
  induction es with
  | nil => simp [lookupTS] at hl
  | cons e rest ih =>
    by_cases he : e.1 = k
    · rw [lookupTS, if_pos he] at hl
      have : e = (k, t) := by
        cases e
        simp_all
      subst this
      simp [List.filter_cons, hp, lookupTS]
    · rw [lookupTS, if_neg he] at hl
      rw [List.filter_cons]
      by_cases hpe : p e = true
      · simp [hpe, lookupTS, he, ih hl]
      · simp [hpe, ih hl]

theorem eraseKey_of_not_mem (es : List (String × Int)) (k : String)
    (h : k ∉ es.map Prod.fst) : eraseKey es k = es := by
  apply List.filter_eq_self.mpr
  intro e he
  have hm : e.1 ∈ es.map Prod.fst := List.mem_map_of_mem Prod.fst he
  have hne : e.1 ≠ k := fun hh => h (hh ▸ hm)
  simp [hne]

theorem length_insertKey_of_none (es : List (String × Int)) (k : String) (t : Int)
    (h : lookupTS es k = none) : (insertKey es k t).length = es.length + 1 := by
  induction es with
  | nil => simp [insertKey]
  | cons e rest ih =>
    by_cases he : e.1 = k
    · simp [lookupTS, he] at h
    · rw [lookupTS, if_neg he] at h
      simp [insertKey, he, ih h]

theorem length_insertKey_of_some (es : List (String × Int)) (k : String) (t t' : Int)
    (h : lookupTS es k = some t') : (insertKey es k t).length = es.length := by
  induction es with
  | nil => simp [lookupTS] at h
  | cons e rest ih =>
    by_cases he : e.1 = k
    · simp [insertKey, he]
    · rw [lookupTS, if_neg he] at h
      simp [insertKey, he, ih h]

theorem length_insertKey_le (es : List (String × Int)) (k : String) (t : Int) :
    (insertKey es k t).length ≤ es.length + 1 := by
  rcases h : lookupTS es k with _ | t'
  · exact le_of_eq (length_insertKey_of_none es k t h)
  · rw [length_insertKey_of_some es k t t' h]
    omega

theorem length_eraseKey_add_one (es : List (String × Int)) (k : String)
    (hnd : (es.map Prod.fst).Nodup) (h : k ∈ es.map Prod.fst) :
    (eraseKey es k).length + 1 = es.length := by
  induction es with
  | nil => simp at h
  | cons e rest ih =>
    obtain ⟨a, b⟩ := e
    simp only [List.map_cons, List.nodup_cons] at hnd
    by_cases ha : a = k
    · subst ha
      have h1 : eraseKey ((a, b) :: rest) a = eraseKey rest a := by
        simp [eraseKey, List.filter_cons]
      rw [h1, eraseKey_of_not_mem rest a hnd.1]
      simp
    · have hk : k ∈ rest.map Prod.fst := by
        rcases List.mem_cons.mp h with h1 | h1
        · exact absurd h1.symm ha
        · exact h1
      have h1 : eraseKey ((a, b) :: rest) k = (a, b) :: eraseKey rest k := by
        simp [eraseKey, List.filter_cons, ha]
      have h2 := ih hnd.2 hk
      rw [h1, List.length_cons, List.length_cons]
      omega

theorem mem_keys_insertKey (es : List (String × Int)) (k x : String) (t : Int) :
    x ∈ (insertKey es k t).map Prod.fst ↔ x = k ∨ x ∈ es.map Prod.fst := by
  induction es with
  | nil => simp [insertKey]
  | cons e rest ih =>
    obtain ⟨a, b⟩ := e
    by_cases he : a = k
    · subst he
      simp [insertKey]
    · simp only [insertKey, if_neg he, List.map_cons, List.mem_cons, ih]
      tauto

theorem nodup_keys_insertKey (es : List (String × Int)) (k : String) (t : Int)
    (hnd : (es.map Prod.fst).Nodup) : ((insertKey es k t).map Prod.fst).Nodup := by
  induction es with
  | nil => simp [insertKey]
  | cons e rest ih =>
    obtain ⟨a, b⟩ := e
    simp only [List.map_cons, List.nodup_cons] at hnd
    by_cases he : a = k
    · subst he
      simpa [insertKey] using hnd
    · simp only [insertKey, if_neg he, List.map_cons, List.nodup_cons]
      refine ⟨?_, ih hnd.2⟩
      rw [mem_keys_insertKey]
      push_neg
      exact ⟨he, hnd.1⟩

theorem nodup_keys_eraseKey (es : List (String × Int)) (k : String)
    (hnd : (es.map Prod.fst).Nodup) : ((eraseKey es k).map Prod.fst).Nodup := by
  have hsub : (eraseKey es k).Sublist es := List.filter_sublist es
  exact (hsub.map Prod.fst).nodup hnd

/-! ### The eviction scan of `Add` -/

theorem evict_fold_fst_le (es : List (String × Int)) (acc : Int × String) :
    (es.foldl (fun a e => if e.2 < a.1 then (e.2, e.1) else a) acc).1 ≤ acc.1 := by
  induction es generalizing acc with
  | nil => exact le_refl _
  | cons e rest ih =>
    rw [List.foldl_cons]
    refine le_trans (ih _) ?_
    by_cases h : e.2 < acc.1
    · rw [if_pos h]
      exact le_of_lt h
    · rw [if_neg h]

theorem evict_fold_fst_le_mem (es : List (String × Int)) (acc : Int × String)
    (e' : String × Int) (h : e' ∈ es) :
    (es.foldl (fun a e => if e.2 < a.1 then (e.2, e.1) else a) acc).1 ≤ e'.2 := by
  induction es generalizing acc with
  | nil => simp at h
  | cons e rest ih =>
    rw [List.foldl_cons]
    rcases List.mem_cons.mp h with h1 | h1
    · subst h1
      refine le_trans (evict_fold_fst_le rest _) ?_
      by_cases hc : e'.2 < acc.1
      · rw [if_pos hc]
      · rw [if_neg hc]
        push_neg at hc
        exact hc
    · exact ih (if e.2 < acc.1 then (e.2, e.1) else acc) h1

theorem evict_fold_eq_or_mem (es : List (String × Int)) (acc : Int × String) :
    es.foldl (fun a e => if e.2 < a.1 then (e.2, e.1) else a) acc = acc ∨
      ((es.foldl (fun a e => if e.2 < a.1 then (e.2, e.1) else a) acc).2,
        (es.foldl (fun a e => if e.2 < a.1 then (e.2, e.1) else a) acc).1) ∈ es := by
  induction es generalizing acc with
  | nil => exact Or.inl rfl
  | cons e rest ih =>
    rw [List.foldl_cons]
    rcases ih (if e.2 < acc.1 then (e.2, e.1) else acc) with h1 | h1
    · rw [h1]
      by_cases hc : e.2 < acc.1
      · rw [if_pos hc]
        exact Or.inr (List.mem_cons_self _ _)
      · rw [if_neg hc]
        exact Or.inl rfl
    · exact Or.inr (List.mem_cons_of_mem _ h1)

theorem findOldest_fst_le (es : List (String × Int)) (e : String × Int) (h : e ∈ es) :
    (findOldest es).1 ≤ e.2 :=
  evict_fold_fst_le_mem es (maxInt64, "") e h

theorem findOldest_swap_mem (es : List (String × Int)) (kmin : String) (tmin : Int)
    (hmem : (kmin, tmin) ∈ es) (hlt : tmin < maxInt64) :
    ((findOldest es).2, (findOldest es).1) ∈ es := by
  rcases evict_fold_eq_or_mem es (maxInt64, "") with h1 | h1
  · exfalso
    have h2 : (findOldest es).1 ≤ tmin := findOldest_fst_le es (kmin, tmin) hmem
    have h3 : (findOldest es).1 = maxInt64 := by
      rw [findOldest, h1]
    rw [h3] at h2
    exact absurd (lt_of_le_of_lt h2 hlt) (lt_irrefl _)
  · exact h1

theorem findOldest_snd_eq (es : List (String × Int)) (kmin : String) (tmin : Int)
    (hmem : (kmin, tmin) ∈ es) (hlt : tmin < maxInt64)
    (huniq : ∀ e ∈ es, e.1 ≠ kmin → tmin < e.2) :
    (findOldest es).2 = kmin := by
  by_contra hne
  have hm := findOldest_swap_mem es kmin tmin hmem hlt
  have h1 : tmin < (findOldest es).1 := huniq _ hm hne
  have h2 : (findOldest es).1 ≤ tmin := findOldest_fst_le es (kmin, tmin) hmem
  exact absurd (lt_of_lt_of_le h1 h2) (lt_irrefl _)

theorem findOldest_key_mem (es : List (String × Int)) (kmin : String) (tmin : Int)
    (hmem : (kmin, tmin) ∈ es) (hlt : tmin < maxInt64) :
    (findOldest es).2 ∈ es.map Prod.fst := by
  have h := findOldest_swap_mem es kmin tmin hmem hlt
  exact List.mem_map_of_mem Prod.fst h

/-! ### The reap sweep -/

theorem foldl_eraseKey_cons_not_mem (tr : List String) (k : String) (t : Int)
    (es : List (String × Int)) (h : k ∉ tr) :
    tr.foldl (fun a rv => eraseKey a rv) ((k, t) :: es) =
      (k, t) :: tr.foldl (fun a rv => eraseKey a rv) es := by
  induction tr generalizing es with
  | nil => rfl
  | cons rv tr' ih =>
    simp only [List.mem_cons, not_or] at h
    rw [List.foldl_cons, List.foldl_cons]
    have h1 : eraseKey ((k, t) :: es) rv = (k, t) :: eraseKey es rv := by
      simp [eraseKey, List.filter_cons, h.1]
    rw [h1]
    exact ih _ h.2

theorem foldl_eraseKey_filter (es : List (String × Int)) (p : String × Int → Bool)
    (hnd : (es.map Prod.fst).Nodup) :
    ((es.filter p).map Prod.fst).foldl (fun a rv => eraseKey a rv) es =
      es.filter (fun e => !(p e)) := by
  induction es with
  | nil => simp
  | cons e rest ih =>
    obtain ⟨a, b⟩ := e
    simp only [List.map_cons, List.nodup_cons] at hnd
    by_cases hp : p (a, b) = true
    · have hfc : ((a, b) :: rest).filter p = (a, b) :: rest.filter p := by
        simp [List.filter_cons, hp]
      have h2 : ((a, b) :: rest).filter (fun e => !(p e)) = rest.filter (fun e => !(p e)) := by
        simp [List.filter_cons, hp]
      have h1 : eraseKey ((a, b) :: rest) a = eraseKey rest a := by
        simp [eraseKey, List.filter_cons]
      rw [hfc, h2, List.map_cons, List.foldl_cons, h1,
        eraseKey_of_not_mem rest a hnd.1, ih hnd.2]
    · have hpf : p (a, b) = false := by
        simpa using hp
      have hfc : ((a, b) :: rest).filter p = rest.filter p := by
        simp [List.filter_cons, hpf]
      have h2 : ((a, b) :: rest).filter (fun e => !(p e)) =
          (a, b) :: rest.filter (fun e => !(p e)) := by
        simp [List.filter_cons, hpf]
      have ha : a ∉ (rest.filter p).map Prod.fst := by
        intro hmem
        exact hnd.1 (((List.filter_sublist rest).map Prod.fst).subset hmem)
      rw [hfc, h2, foldl_eraseKey_cons_not_mem _ _ _ _ ha, ih hnd.2]

theorem reapSweep_entries (c : cache) (now : Int)
    (hnd : (c.entries.map Prod.fst).Nodup) :
    (c.reapSweep now).entries =
      c.entries.filter (fun e => !(decide (e.2 < now - c.TTL))) := by
  show ((c.entries.filter (fun e => decide (e.2 < now - c.TTL))).map Prod.fst).foldl
      (fun a rv => eraseKey a rv) c.entries =
    c.entries.filter (fun e => !(decide (e.2 < now - c.TTL)))
  exact foldl_eraseKey_filter c.entries _ hnd

theorem lookupTS_reapSweep_fresh (c : cache) (now : Int) (k : String) (ts : Int)
    (hnd : (c.entries.map Prod.fst).Nodup)
    (hl : lookupTS c.entries k = some ts) (hfresh : ¬(ts < now - c.TTL)) :
    lookupTS (c.reapSweep now).entries k = some ts := by
  rw [reapSweep_entries c now hnd]
  exact lookupTS_filter _ _ _ _ hl (by simp [hfresh])

/-! ### Unfolding and frame lemmas for the operations -/

theorem Add_entries_not_full (c : cache) (v : String) (now : Int)
    (h : ¬(0 < c.MaxEntries ∧ c.MaxEntries ≤ (c.entries.length : Int))) :
    (c.Add v now).entries = insertKey c.entries v now := by
  simp [cache.Add, h]

theorem Add_entries_full (c : cache) (v : String) (now : Int)
    (h : 0 < c.MaxEntries ∧ c.MaxEntries ≤ (c.entries.length : Int)) :
    (c.Add v now).entries =
      insertKey (eraseKey c.entries (findOldest c.entries).2) v now := by
  simp [cache.Add, h]

theorem Add_MaxEntries (c : cache) (v : String) (now : Int) :
    (c.Add v now).MaxEntries = c.MaxEntries := rfl

theorem Add_TTL (c : cache) (v : String) (now : Int) :
    (c.Add v now).TTL = c.TTL := rfl

theorem reapSweep_MaxEntries (c : cache) (now : Int) :
    (c.reapSweep now).MaxEntries = c.MaxEntries := rfl

theorem reapSweep_TTL (c : cache) (now : Int) :
    (c.reapSweep now).TTL = c.TTL := rfl

theorem Destroy_MaxEntries (c : cache) : c.Destroy.MaxEntries = c.MaxEntries := rfl

theorem Destroy_entries (c : cache) : c.Destroy.entries = c.entries := rfl

theorem mem_insertKey (es : List (String × Int)) (k : String) (t : Int)
    (e : String × Int) (h : e ∈ insertKey es k t) : e = (k, t) ∨ e ∈ es := by
  induction es with
  | nil => simpa [insertKey] using h
  | cons e' rest ih =>
    obtain ⟨a, b⟩ := e'
    by_cases he : a = k
    · subst he
      have h' : e = (a, t) ∨ e ∈ rest := by simpa [insertKey] using h
      rcases h' with h1 | h1
      · exact Or.inl h1
      · exact Or.inr (List.mem_cons_of_mem _ h1)
    · have h' : e = (a, b) ∨ e ∈ insertKey rest k t := by simpa [insertKey, he] using h
      rcases h' with h1 | h1
      · exact Or.inr (h1 ▸ List.mem_cons_self _ _)
      · rcases ih h1 with h2 | h2
        · exact Or.inl h2
        · exact Or.inr (List.mem_cons_of_mem _ h2)

theorem mem_of_mem_eraseKey (es : List (String × Int)) (k : String)
    (e : String × Int) (h : e ∈ eraseKey es k) : e ∈ es :=
  (List.filter_sublist es).subset h

theorem foldl_eraseKey_sublist (tr : List String) (es : List (String × Int)) :
    (tr.foldl (fun a rv => eraseKey a rv) es).Sublist es := by
  induction tr generalizing es with
  | nil => exact List.Sublist.refl es
  | cons rv tr' ih =>
    rw [List.foldl_cons]
    exact (ih (eraseKey es rv)).trans (List.filter_sublist es)

theorem reapSweep_entries_sublist (c : cache) (now : Int) :
    ((c.reapSweep now).entries).Sublist c.entries := by
  show (((c.entries.filter (fun e => decide (e.2 < now - c.TTL))).map Prod.fst).foldl
      (fun a rv => eraseKey a rv) c.entries).Sublist c.entries
  exact foldl_eraseKey_sublist _ _

/-! ### The state invariant reachable states satisfy -/

/-- Invariant carried through every operation: unique keys, realistic
timestamps, and occupancy within `MaxEntries` when that bound is set. -/
def goodState (c : cache) : Prop :=
  (c.entries.map Prod.fst).Nodup ∧
    (∀ e ∈ c.entries, e.2 < maxInt64) ∧
    (0 < c.MaxEntries → (c.entries.length : Int) ≤ c.MaxEntries)

theorem goodState_Add (c : cache) (v : String) (now : Int)
    (hg : goodState c) (hnow : now < maxInt64) : goodState (c.Add v now) := by
  obtain ⟨hnd, hts, hlen⟩ := hg
  by_cases hfull : 0 < c.MaxEntries ∧ c.MaxEntries ≤ (c.entries.length : Int)
  · have hne : c.entries ≠ [] := by
      intro hnil
      rw [hnil] at hfull
      simp at hfull
      omega
    obtain ⟨e0, he0⟩ := List.exists_mem_of_ne_nil _ hne
    have hmem : ((e0.1, e0.2) : String × Int) ∈ c.entries := he0
    have kmem : (findOldest c.entries).2 ∈ c.entries.map Prod.fst :=
      findOldest_key_mem c.entries e0.1 e0.2 hmem (hts e0 he0)
    refine ⟨?_, ?_, ?_⟩
    · rw [Add_entries_full c v now hfull]
      exact nodup_keys_insertKey _ _ _ (nodup_keys_eraseKey _ _ hnd)
    · rw [Add_entries_full c v now hfull]
      intro e he
      rcases mem_insertKey _ _ _ _ he with h1 | h1
      · rw [h1]
        exact hnow
      · exact hts e (mem_of_mem_eraseKey _ _ _ h1)
    · rw [Add_MaxEntries, Add_entries_full c v now hfull]
      intro hmax
      have l1 := length_eraseKey_add_one c.entries _ hnd kmem
      have l2 := length_insertKey_le (eraseKey c.entries (findOldest c.entries).2) v now
      have l3 := hlen hmax
      omega
  · refine ⟨?_, ?_, ?_⟩
    · rw [Add_entries_not_full c v now hfull]
      exact nodup_keys_insertKey _ _ _ hnd
    · rw [Add_entries_not_full c v now hfull]
      intro e he
      rcases mem_insertKey _ _ _ _ he with h1 | h1
      · rw [h1]
        exact hnow
      · exact hts e h1
    · rw [Add_MaxEntries, Add_entries_not_full c v now hfull]
      intro hmax
      have h1 : ¬(c.MaxEntries ≤ (c.entries.length : Int)) := by
        intro hc
        exact hfull ⟨hmax, hc⟩
      have l2 := length_insertKey_le c.entries v now
      omega

theorem goodState_reapSweep (c : cache) (now : Int)
    (hg : goodState c) : goodState (c.reapSweep now) := by
  obtain ⟨hnd, hts, hlen⟩ := hg
  have hsub := reapSweep_entries_sublist c now
  refine ⟨(hsub.map Prod.fst).nodup hnd, ?_, ?_⟩
  · intro e he
    exact hts e (hsub.subset he)
  · rw [reapSweep_MaxEntries]
    intro hmax
    have l1 := hsub.length_le
    have l2 := hlen hmax
    omega

theorem goodState_Destroy (c : cache) (hg : goodState c) : goodState c.Destroy := hg

theorem goodState_applyOp (c : cache) (o : cacheOp)
    (hg : goodState c) (hok : opTimeOK o = true) : goodState (applyOp c o) := by
  cases o with
  | add k now =>
    have hnow : now < maxInt64 := by simpa [opTimeOK] using hok
    exact goodState_Add c k now hg hnow
  | reap now => exact goodState_reapSweep c now hg
  | destroy => exact goodState_Destroy c hg

theorem applyOp_MaxEntries (c : cache) (o : cacheOp) :
    (applyOp c o).MaxEntries = c.MaxEntries := by
  cases o <;> rfl

theorem goodState_runOps (c : cache) (ops : List cacheOp)
    (hg : goodState c) (hok : ∀ o ∈ ops, opTimeOK o = true) :
    goodState (runOps c ops) := by
  induction ops generalizing c with
  | nil => exact hg
  | cons o rest ih =>
    rw [runOps, List.foldl_cons]
    exact ih (applyOp c o)
      (goodState_applyOp c o hg (hok o (List.mem_cons_self _ _)))
      (fun o' ho' => hok o' (List.mem_cons_of_mem _ ho'))

theorem runOps_MaxEntries (c : cache) (ops : List cacheOp) :
    (runOps c ops).MaxEntries = c.MaxEntries := by
  induction ops generalizing c with
  | nil => rfl
  | cons o rest ih =>
    rw [runOps, List.foldl_cons]
    rw [show (rest.foldl applyOp (applyOp c o)) = runOps (applyOp c o) rest from rfl]
    rw [ih (applyOp c o), applyOp_MaxEntries]

theorem newCache_ok_elim (ttl reap m : Int) (c : cache)
    (h : newCache ttl reap m = .ok c) :
    c = { TTL := ttl, ReapIntervals := reap, MaxEntries := m,
          stop := false, entries := [] } := by
  by_cases h1 : ttl ≤ 0
  · simp [newCache, h1] at h
  · by_cases h2 : reap > ttl
    · simp [newCache, h1, h2] at h
    · simp [newCache, h1, h2] at h
      exact h.symm

theorem lookupTS_mem (es : List (String × Int)) (k : String) (ts : Int)
    (h : lookupTS es k = some ts) : (k, ts) ∈ es := by
  induction es with
  | nil => simp [lookupTS] at h
  | cons e rest ih =>
    obtain ⟨a, b⟩ := e
    by_cases he : a = k
    · subst he
      rw [lookupTS, if_pos rfl] at h
      injection h with h
      rw [← h]
      exact List.mem_cons_self _ _
    · rw [lookupTS, if_neg he] at h
      exact List.mem_cons_of_mem _ (ih h)

theorem lookupTS_of_mem_nodup (es : List (String × Int)) (k : String) (ts : Int)
    (hnd : (es.map Prod.fst).Nodup) (h : (k, ts) ∈ es) :
    lookupTS es k = some ts := by
  induction es with
  | nil => simp at h
  | cons e rest ih =>
    obtain ⟨a, b⟩ := e
    simp only [List.map_cons, List.nodup_cons] at hnd
    rcases List.mem_cons.mp h with h1 | h1
    · injection h1 with h1a h1b
      rw [lookupTS, if_pos h1a.symm, h1b]
    · have hke : k ∈ rest.map Prod.fst := List.mem_map_of_mem Prod.fst h1
      have hak : a ≠ k := fun hh => hnd.1 (hh ▸ hke)
      rw [lookupTS, if_neg hak]
      exact ih hnd.2 h1

theorem lookupTS_Add_self (c : cache) (k : String) (t : Int) :
    lookupTS (c.Add k t).entries k = some t := by
  by_cases hfull : 0 < c.MaxEntries ∧ c.MaxEntries ≤ (c.entries.length : Int)
  · rw [Add_entries_full c k t hfull]
    exact lookupTS_insertKey_self _ _ _
  · rw [Add_entries_not_full c k t hfull]
    exact lookupTS_insertKey_self _ _ _

theorem nodup_keys_Add (c : cache) (k : String) (t : Int)
    (hnd : (c.entries.map Prod.fst).Nodup) :
    ((c.Add k t).entries.map Prod.fst).Nodup := by
  by_cases hfull : 0 < c.MaxEntries ∧ c.MaxEntries ≤ (c.entries.length : Int)
  · rw [Add_entries_full c k t hfull]
    exact nodup_keys_insertKey _ _ _ (nodup_keys_eraseKey _ _ hnd)
  · rw [Add_entries_not_full c k t hfull]
    exact nodup_keys_insertKey _ _ _ hnd

/-! ### Concrete states used to settle the claims -/

/-- A cache whose single entry is long expired at observation time 100:
`TTL = 10`, `"hans"` stored at timestamp 0. -/
def cexpired : cache :=
  { TTL := 10, ReapIntervals := 1, MaxEntries := 0, stop := false,
    entries := [("hans", 0)] }

/-- A cache at capacity (`MaxEntries = 2`) holding `"a"` (timestamp 1,
the oldest) and `"b"` (timestamp 2). -/
def cfull : cache :=
  { TTL := 100, ReapIntervals := 10, MaxEntries := 2, stop := false,
    entries := [("a", 1), ("b", 2)] }

/-! ### The claims -/

/-- C1, as stated, is false on the code: `Exists` in `cache.go` is a bare
map-membership test, so at state `cexpired` (TTL 10, `"hans"` stored at
time 0) observed at time 100 it returns true although the entry's age 100
is not below the TTL — an expired-but-not-yet-reaped entry is reported
as present, contradicting `Exists(key) = (present ∧ age < TTL)`. -/
theorem c1_counterexample :
    ¬(cache.Exists cexpired "hans" = specFreshB cexpired "hans" 100) := by
  decide

/-- C1 (amended): `Exists(k)` returns true iff `k` is physically present
in the store, with no expiry check: whenever some timestamp is stored for
`k`, however old, `Exists(k)` reports true; staleness is only bounded by
the reap cadence. -/
theorem c1_exists_is_physical_presence (c : cache) (k : String) :
    (cache.Exists c k = true ↔ k ∈ c.entries.map Prod.fst) ∧
      (∀ ts, lookupTS c.entries k = some ts → cache.Exists c k = true) := by
  constructor
  · constructor
    · intro hex
      rcases h : lookupTS c.entries k with _ | ts
      · rw [cache.Exists, h] at hex
        simp at hex
      · exact List.mem_map_of_mem Prod.fst (lookupTS_mem _ _ _ h)
    · intro hmem
      rcases h : lookupTS c.entries k with _ | ts
      · exact absurd hmem ((lookupTS_eq_none_iff c.entries k).mp h)
      · rw [cache.Exists, h]
        rfl
  · intro ts h
    rw [cache.Exists, h]
    rfl

/-- Witness for the amended C1 at a concrete state: the expired entry of
`cexpired` is still reported present. -/
theorem c1_witness : cache.Exists cexpired "hans" = true :=
  (c1_exists_is_physical_presence cexpired "hans").2 0 (by decide)

/-- C2, as stated, is false on the code: at the full state `cfull`
(capacity 2, `"a"` oldest, `"b"` present), `Add("b")` refreshes a key
that is already present, yet the code still evicts `"a"` — `Add` in
`cache.go` never checks whether the added key is already present before
evicting, so the size drops to 1. -/
theorem c2_counterexample :
    cache.Exists cfull "b" = true ∧ cache.Exists cfull "a" = true ∧
      cache.Exists (cfull.Add "b" 5) "a" = false ∧
      cache.Size (cfull.Add "b" 5) = 1 := by
  decide

/-- C2 (amended): when `MaxEntries > 0` and the store holds at least
`MaxEntries` entries, `Add(k)` evicts the entry with the (unique) smallest
timestamp even when `k` is already present: for `kmin ≠ k` holding the
strict minimum, afterwards `kmin` is gone, `k` holds the new timestamp,
and the entry count has shrunk by one. -/
theorem c2_add_at_capacity_always_evicts (c : cache) (k kmin : String)
    (now tk tmin : Int)
    (hnd : (c.entries.map Prod.fst).Nodup)
    (hfull : 0 < c.MaxEntries ∧ c.MaxEntries ≤ (c.entries.length : Int))
    (hk : lookupTS c.entries k = some tk)
    (hmin : (kmin, tmin) ∈ c.entries) (hlt : tmin < maxInt64)
    (huniq : ∀ e ∈ c.entries, e.1 ≠ kmin → tmin < e.2)
    (hne : kmin ≠ k) :
    cache.Exists (c.Add k now) kmin = false ∧
      lookupTS (c.Add k now).entries k = some now ∧
      (c.Add k now).entries.length + 1 = c.entries.length := by
  have hsnd : (findOldest c.entries).2 = kmin :=
    findOldest_snd_eq c.entries kmin tmin hmin hlt huniq
  have hent : (c.Add k now).entries =
      insertKey (eraseKey c.entries kmin) k now := by
    rw [Add_entries_full c k now hfull, hsnd]
  refine ⟨?_, ?_, ?_⟩
  · rw [cache.Exists, hent, lookupTS_insertKey_ne _ _ _ _ hne,
      lookupTS_eraseKey_self]
    rfl
  · rw [hent]
    exact lookupTS_insertKey_self _ _ _
  · rw [hent]
    have hkmem : kmin ∈ c.entries.map Prod.fst := List.mem_map_of_mem Prod.fst hmin
    have l1 := length_eraseKey_add_one c.entries kmin hnd hkmem
    have hkerase : lookupTS (eraseKey c.entries kmin) k = some tk := by
      rw [lookupTS_eraseKey_ne _ _ _ (Ne.symm hne)]
      exact hk
    have l2 := length_insertKey_of_some _ _ now tk hkerase
    omega

/-- Witness for the amended C2 at `cfull`: refreshing the present key
`"b"` still evicts the oldest key `"a"` and shrinks the store. -/
theorem c2_amended_witness :
    cache.Exists (cfull.Add "b" 5) "a" = false ∧
      lookupTS (cfull.Add "b" 5).entries "b" = some 5 ∧
      (cfull.Add "b" 5).entries.length + 1 = cfull.entries.length :=
  c2_add_at_capacity_always_evicts cfull "b" "a" 5 2 1 (by decide) (by decide)
    (by decide) (by decide) (by decide) (by decide) (by decide)

/-- C3: for every cache constructed by `newCache` with `maxEntries = m > 0`
and every sequence of operations (`Add`s at realistic times, reap sweeps,
`Destroy`s — `Exists`/`Size`/`Len` read without mutating), the entry count
reported by `Size` never exceeds `m`. -/
theorem c3_capacity_bound (ttl reap m : Int) (c0 : cache) (ops : List cacheOp)
    (hnew : newCache ttl reap m = .ok c0) (hm : 0 < m)
    (hok : ∀ o ∈ ops, opTimeOK o = true) :
    cache.Size (runOps c0 ops) ≤ m := by
  have hc0 := newCache_ok_elim ttl reap m c0 hnew
  subst hc0
  have hg0 : goodState ⟨ttl, reap, m, false, []⟩ := by
    refine ⟨by simp, by simp, ?_⟩
    intro _
    simp only [List.length_nil, Nat.cast_zero]
    omega
  have hg := goodState_runOps _ ops hg0 hok
  have hM : (runOps ⟨ttl, reap, m, false, []⟩ ops).MaxEntries = m :=
    runOps_MaxEntries _ ops
  have hb := hg.2.2 (by rw [hM]; exact hm)
  rw [hM] at hb
  exact hb

/-- Witness for C3: capacity 1, two distinct adds, size stays at 1. -/
theorem c3_witness :
    cache.Size (runOps ⟨10, 1, 1, false, []⟩
      [cacheOp.add "x" 3, cacheOp.add "y" 4]) ≤ 1 :=
  c3_capacity_bound 10 1 1 _ [cacheOp.add "x" 3, cacheOp.add "y" 4]
    (by rfl) (by decide) (by decide)

/-- C4: at capacity (`Size = MaxEntries > 0`), adding a key that is not
present evicts exactly the entry holding the (unique) smallest timestamp:
that key is no longer present afterwards, the size is again `MaxEntries`
(exactly one entry was evicted for the one inserted), and the resulting
store is precisely the old one with `kmin` removed and `k` inserted. -/
theorem c4_oldest_evicted (c : cache) (k kmin : String) (now tmin : Int)
    (hnd : (c.entries.map Prod.fst).Nodup)
    (hmax : 0 < c.MaxEntries)
    (hsize : cache.Size c = c.MaxEntries)
    (hnewk : lookupTS c.entries k = none)
    (hmin : (kmin, tmin) ∈ c.entries) (hlt : tmin < maxInt64)
    (huniq : ∀ e ∈ c.entries, e.1 ≠ kmin → tmin < e.2) :
    cache.Exists (c.Add k now) kmin = false ∧
      cache.Size (c.Add k now) = c.MaxEntries ∧
      (c.Add k now).entries = insertKey (eraseKey c.entries kmin) k now := by
  have hfull : 0 < c.MaxEntries ∧ c.MaxEntries ≤ (c.entries.length : Int) :=
    ⟨hmax, le_of_eq hsize.symm⟩
  have hsnd : (findOldest c.entries).2 = kmin :=
    findOldest_snd_eq c.entries kmin tmin hmin hlt huniq
  have hent : (c.Add k now).entries =
      insertKey (eraseKey c.entries kmin) k now := by
    rw [Add_entries_full c k now hfull, hsnd]
  have hne : kmin ≠ k := by
    intro hh
    have hkm : k ∈ c.entries.map Prod.fst :=
      hh ▸ List.mem_map_of_mem Prod.fst hmin
    exact (lookupTS_eq_none_iff c.entries k).mp hnewk hkm
  refine ⟨?_, ?_, hent⟩
  · rw [cache.Exists, hent, lookupTS_insertKey_ne _ _ _ _ hne,
      lookupTS_eraseKey_self]
    rfl
  · have hkmem : kmin ∈ c.entries.map Prod.fst := List.mem_map_of_mem Prod.fst hmin
    have l1 := length_eraseKey_add_one c.entries kmin hnd hkmem
    have hkerase : lookupTS (eraseKey c.entries kmin) k = none := by
      rw [lookupTS_eraseKey_ne _ _ _ (Ne.symm hne)]
      exact hnewk
    have l2 := length_insertKey_of_none _ k now hkerase
    rw [cache.Size] at hsize ⊢
    rw [Add_entries_full c k now hfull, hsnd, l2]
    omega

/-- Witness for C4 at `cfull`: adding the fresh key `"c"` evicts exactly
the oldest key `"a"`. -/
theorem c4_witness :
    cache.Exists (cfull.Add "c" 5) "a" = false ∧
      cache.Size (cfull.Add "c" 5) = cfull.MaxEntries ∧
      (cfull.Add "c" 5).entries = insertKey (eraseKey cfull.entries "a") "c" 5 :=
  c4_oldest_evicted cfull "c" "a" 5 1 (by decide) (by decide) (by decide)
    (by decide) (by decide) (by decide) (by decide)

/-- C5: `newCache` fails with the invalid-TTL error exactly when
`ttl <= 0`, fails with the invalid-reap-interval error when `ttl > 0` but
`reapIntervals > ttl`, and on all other inputs succeeds with an empty
entries map and the given configuration. -/
theorem c5_construction_validation (ttl reap m : Int) :
    (ttl ≤ 0 → newCache ttl reap m = .error .invalidTTL) ∧
      (0 < ttl → ttl < reap → newCache ttl reap m = .error .invalidReapInterval) ∧
      (0 < ttl → reap ≤ ttl → newCache ttl reap m =
        .ok ⟨ttl, reap, m, false, []⟩) := by
  refine ⟨?_, ?_, ?_⟩
  · intro h
    rw [newCache, if_pos h]
  · intro h1 h2
    rw [newCache, if_neg (not_le.mpr h1), if_pos h2]
  · intro h1 h2
    rw [newCache, if_neg (not_le.mpr h1), if_neg (not_lt.mpr h2)]

/-- Witness for C5: the three concrete constructions of the spec's test
(`ttl=0` invalid, `reap > ttl` invalid, `ttl=10, reap=1` valid). -/
theorem c5_witness :
    newCache 0 7 5 = .error .invalidTTL ∧
      newCache 1 2 5 = .error .invalidReapInterval ∧
      newCache 10 1 5 = .ok ⟨10, 1, 5, false, []⟩ :=
  ⟨(c5_construction_validation 0 7 5).1 (by decide),
    (c5_construction_validation 1 2 5).2.1 (by decide) (by decide),
    (c5_construction_validation 10 1 5).2.2 (by decide) (by decide)⟩

theorem cache_ext (a b : cache) (h1 : a.TTL = b.TTL)
    (h2 : a.ReapIntervals = b.ReapIntervals) (h3 : a.MaxEntries = b.MaxEntries)
    (h4 : a.stop = b.stop) (h5 : a.entries = b.entries) : a = b := by
  cases a
  cases b
  simp_all

/-- C6: one reap sweep at time `now` keeps exactly the entries whose
timestamp is at least the cutoff `now - TTL` (in order, unchanged), and
removes exactly those strictly below it: per key, a stored timestamp
survives iff it is not `< now - TTL`. -/
theorem c6_reap_removes_exactly_expired (c : cache) (now : Int)
    (hnd : (c.entries.map Prod.fst).Nodup) :
    (c.reapSweep now).entries =
        c.entries.filter (fun e => !(decide (e.2 < now - c.TTL))) ∧
      (∀ k ts, lookupTS c.entries k = some ts →
        lookupTS (c.reapSweep now).entries k =
          if ts < now - c.TTL then none else some ts) := by
  refine ⟨reapSweep_entries c now hnd, ?_⟩
  intro k ts hl
  by_cases hexp : ts < now - c.TTL
  · rw [if_pos hexp, reapSweep_entries c now hnd]
    rcases hcase : lookupTS
      (c.entries.filter (fun e => !(decide (e.2 < now - c.TTL)))) k with _ | t'
    · rfl
    · exfalso
      have hmem := lookupTS_mem _ _ _ hcase
      have hmem' := List.mem_filter.mp hmem
      have heq := lookupTS_of_mem_nodup c.entries k t' hnd hmem'.1
      rw [hl] at heq
      injection heq with heq
      have h2 : ¬(t' < now - c.TTL) := by simpa using hmem'.2
      rw [← heq] at h2
      exact h2 hexp
  · rw [if_neg hexp]
    exact lookupTS_reapSweep_fresh c now k ts hnd hl hexp

/-- Witness for C6: with TTL 10 at time 100, the sweep removes the entry
stamped 0 and keeps the one stamped 95. -/
theorem c6_witness :
    (cache.reapSweep ⟨10, 1, 0, false, [("old", 0), ("new", 95)]⟩ 100).entries =
      [("new", 95)] := by
  have h := (c6_reap_removes_exactly_expired
    ⟨10, 1, 0, false, [("old", 0), ("new", 95)]⟩ 100 (by decide)).1
  rw [h]
  decide

/-- C7: immediately after `Add(k)` at time `t`, `Exists(k)` returns true;
and it still returns true after a reap sweep taken at any time `now` with
elapsed time `now - t < TTL` (no intervening capacity eviction of `k`). -/
theorem c7_add_then_exists (c : cache) (k : String) (t now : Int)
    (hnd : (c.entries.map Prod.fst).Nodup) :
    cache.Exists (c.Add k t) k = true ∧
      (now - t < c.TTL → cache.Exists ((c.Add k t).reapSweep now) k = true) := by
  have hself := lookupTS_Add_self c k t
  constructor
  · rw [cache.Exists, hself]
    rfl
  · intro hfr
    have hnd' := nodup_keys_Add c k t hnd
    have hkeep : ¬(t < now - (c.Add k t).TTL) := by
      rw [Add_TTL]
      omega
    have hres := lookupTS_reapSweep_fresh (c.Add k t) now k t hnd' hself hkeep
    rw [cache.Exists, hres]
    rfl

/-- Witness for C7: add `"x"` at time 0 to an empty cache with TTL 10,
observe and sweep at time 5. -/
theorem c7_witness :
    cache.Exists (cache.Add ⟨10, 1, 0, false, []⟩ "x" 0) "x" = true ∧
      cache.Exists ((cache.Add ⟨10, 1, 0, false, []⟩ "x" 0).reapSweep 5) "x"
        = true := by
  have h := c7_add_then_exists ⟨10, 1, 0, false, []⟩ "x" 0 5 (by decide)
  exact ⟨h.1, h.2 (by decide)⟩

/-- C8: `Destroy` is idempotent and touches only the stop flag — the
entries, TTL, ReapIntervals and MaxEntries are unchanged, `Exists` and
`Size` answer exactly as before, and `Add` after `Destroy` produces the
same store as `Destroy` after `Add`. -/
theorem c8_destroy_idempotent_frame (c : cache) (k : String) (now : Int) :
    c.Destroy.Destroy = c.Destroy ∧
      c.Destroy.entries = c.entries ∧
      c.Destroy.TTL = c.TTL ∧
      c.Destroy.ReapIntervals = c.ReapIntervals ∧
      c.Destroy.MaxEntries = c.MaxEntries ∧
      cache.Exists c.Destroy k = cache.Exists c k ∧
      cache.Size c.Destroy = cache.Size c ∧
      c.Destroy.Add k now = (c.Add k now).Destroy :=
  ⟨rfl, rfl, rfl, rfl, rfl, rfl, rfl, rfl⟩

/-- C9: a non-positive `maxEntries` (zero or negative) is accepted by
`newCache` (given a valid ttl/reap pair), and disables eviction entirely:
`Add` just writes the key, and a negative bound behaves identically to a
bound of 0 (unbounded store). -/
theorem c9_nonpositive_maxentries (ttl reap m : Int) (c : cache) (k : String)
    (now : Int) :
    (m ≤ 0 → 0 < ttl → reap ≤ ttl →
        newCache ttl reap m = .ok ⟨ttl, reap, m, false, []⟩) ∧
      (c.MaxEntries ≤ 0 → (c.Add k now).entries = insertKey c.entries k now) ∧
      (c.MaxEntries ≤ 0 →
        cache.Add { c with MaxEntries := 0 } k now =
          { c.Add k now with MaxEntries := 0 }) := by
  refine ⟨?_, ?_, ?_⟩
  · intro _ h1 h2
    rw [newCache, if_neg (not_le.mpr h1), if_neg (not_lt.mpr h2)]
  · intro hm
    apply Add_entries_not_full
    intro hc
    exact absurd hc.1 (not_lt.mpr hm)
  · intro hm
    have h0 : ¬(0 < ({ c with MaxEntries := 0 } : cache).MaxEntries ∧
        ({ c with MaxEntries := 0 } : cache).MaxEntries ≤
          ((({ c with MaxEntries := 0 } : cache).entries.length : Int))) := by
      intro hc
      exact absurd hc.1 (lt_irrefl 0)
    have h1 : ¬(0 < c.MaxEntries ∧ c.MaxEntries ≤ ((c.entries.length : Int))) := by
      intro hc
      exact absurd hc.1 (not_lt.mpr hm)
    have e1 : (cache.Add { c with MaxEntries := 0 } k now).entries =
        insertKey c.entries k now := Add_entries_not_full _ k now h0
    have e2 : ({ c.Add k now with MaxEntries := 0 } : cache).entries =
        insertKey c.entries k now := Add_entries_not_full c k now h1
    exact cache_ext _ _ rfl rfl rfl rfl (e1.trans e2.symm)

/-- Witness for C9 with `maxEntries = -3`: construction succeeds, no
eviction happens on `Add`, and the result matches the `MaxEntries = 0`
behaviour. -/
theorem c9_witness :
    newCache 10 1 (-3) = .ok ⟨10, 1, -3, false, []⟩ ∧
      (cache.Add ⟨10, 1, -3, false, [("a", 1)]⟩ "b" 2).entries =
        insertKey [("a", 1)] "b" 2 ∧
      cache.Add ⟨10, 1, 0, false, [("a", 1)]⟩ "b" 2 =
        { cache.Add ⟨10, 1, -3, false, [("a", 1)]⟩ "b" 2 with MaxEntries := 0 } := by
  have h := c9_nonpositive_maxentries 10 1 (-3) ⟨10, 1, -3, false, [("a", 1)]⟩ "b" 2
  exact ⟨h.1 (by decide) (by decide) (by decide), h.2.1 (by decide),
    h.2.2 (by decide)⟩

/-- C10: `newCache` accepts any non-positive reap interval when the TTL is
positive: only `reapIntervals > ttl` (and `ttl <= 0`) are rejected, so zero
and negative reap intervals construct successfully. -/
theorem c10_nonpositive_reap_accepted (ttl reap m : Int)
    (h1 : 0 < ttl) (h2 : reap ≤ 0) :
    newCache ttl reap m = .ok ⟨ttl, reap, m, false, []⟩ := by
  rw [newCache, if_neg (not_le.mpr h1), if_neg (not_lt.mpr (le_trans h2 h1.le))]

/-- Witness for C10: `newCache(1s, 0)` and `newCache(1s, -5s)` (in
nanoseconds) both succeed. -/
theorem c10_witness :
    newCache 1000000000 0 10 = .ok ⟨1000000000, 0, 10, false, []⟩ ∧
      newCache 1000000000 (-5000000000) 10 =
        .ok ⟨1000000000, -5000000000, 10, false, []⟩ :=
  ⟨c10_nonpositive_reap_accepted 1000000000 0 10 (by decide) (by decide),
    c10_nonpositive_reap_accepted 1000000000 (-5000000000) 10 (by decide)
      (by decide)⟩
